import Mathlib

/-!
A shallow embedding of the Huffman file compressor (src/src/encode.rs,
src/src/decode.rs) together with theorems settling the specification
claims about it.

Bit streams are modelled as lists of booleans in big-endian order, the
first element being the first bit of the stream.  Machine integers are
modelled as natural numbers, with an explicit modulus wherever the Rust
code can overflow (the u32 BitQueue accumulator).  Fallible operations
return Except values; the distinct error constructors mirror the
distinct failure modes of the Rust code (io UnexpectedEof, io
InvalidInput from the letter-size guard, the bitstream-io excessive
bits / excessive value errors, and the two panic sites).
-/

namespace Huffman

/-- Failure modes of the embedded code.  eof models io UnexpectedEof;
invalidInput models the io InvalidInput error of the letter-size guard
in compress and of an out-of-range seek; excessiveBits and
excessiveValue model the bitstream-io errors for reads or writes whose
width exceeds the integer type or whose value exceeds the width;
panicMissingKey models the Rust panic on indexing a HashMap with a
missing key; panicDivZero models the Rust panic on integer division by
zero; nonTermination marks a control path of the source that loops
forever. -/
inductive Err where
  | eof
  | invalidInput
  | excessiveBits
  | excessiveValue
  | panicMissingKey
  | panicDivZero
  | nonTermination
deriving DecidableEq, Repr

/-- Big-endian bits of a value, n bits wide: bit i is value / 2 ^ (n - 1 - i) mod 2. -/
def natToBits : Nat → Nat → List Bool
  | 0, _ => []
  | n + 1, v => decide (v / 2 ^ n % 2 = 1) :: natToBits n v

/-- Big-endian numeric value of a bit list. -/
def bitsToNat (bs : List Bool) : Nat :=
  bs.foldl (fun a b => 2 * a + cond b 1 0) 0

/-- A file as a bit stream: each byte contributes its eight bits, big endian. -/
def bytesToBits (bytes : List Nat) : List Bool :=
  bytes.flatMap (natToBits 8)

/-- Model of a bitstream-io write of value in a field of the given
width into an integer type of maxw bits: the width must not exceed the
type width and the value must fit in the field, otherwise the write
fails with the corresponding io error. -/
def writeVal (bits value maxw : Nat) : Except Err (List Bool) :=
  if maxw < bits then .error .excessiveBits
  else if 2 ^ bits ≤ value then .error .excessiveValue
  else .ok (natToBits bits value)

/-- Model of a bitstream-io read of a field of the given width from the
front of a stream into an integer type of maxw bits.  Running out of
bits mid-field is the io UnexpectedEof error. -/
def readBitsE (n : Nat) (s : List Bool) (maxw : Nat) : Except Err (Nat × List Bool) :=
  if maxw < n then .error .excessiveBits
  else if n ≤ s.length then .ok (bitsToNat (s.take n), s.drop n)
  else .error .eof

/-- The encoder Node type of encode.rs: struct Node with a freq field
and a payload that is either Leaf(code) or Joint(left, right). -/
inductive HTree where
  | leaf (freq : Nat) (code : Nat)
  | joint (freq : Nat) (left : HTree) (right : HTree)
deriving DecidableEq, Repr

/-- The freq field of a node. -/
def HTree.freq : HTree → Nat
  | .leaf f _ => f
  | .joint f _ _ => f

/-- The letters at the leaves of a tree, left to right. -/
def leafLetters : HTree → List Nat
  | .leaf _ c => [c]
  | .joint _ l r => leafLetters l ++ leafLetters r

/-- All leaf letters of a list of trees. -/
def listLeafLetters (l : List HTree) : List Nat :=
  l.flatMap leafLetters

/-- Model of std BinaryHeap pop under the reversed Ord of encode.rs:
remove a node of least frequency.  The real heap breaks frequency ties
by its internal array order, which depends on insertion order; this
model breaks ties by taking the earliest least element.  No theorem
below depends on which tied element is taken. -/
def popMin : List HTree → Option (HTree × List HTree)
  | [] => none
  | t :: rest =>
    match popMin rest with
    | none => some (t, [])
    | some (m, rest2) =>
      if t.freq ≤ m.freq then some (t, rest) else some (m, t :: rest2)

/-- The merge loop of create_tree in encode.rs: while more than one
node remains, pop the two least-frequency nodes and push a Joint whose
frequency is their sum.  Fuel-based recursion; each iteration shortens
the list by one, so fuel equal to the initial length always suffices. -/
def createTreeGo : Nat → List HTree → Option HTree
  | _, [] => none
  | _, [t] => some t
  | 0, _ :: _ :: _ => none
  | fuel + 1, l =>
    match popMin l with
    | none => none
    | some (x, l1) =>
      match popMin l1 with
      | none => none
      | some (y, l2) =>
        createTreeGo fuel (l2 ++ [HTree.joint (x.freq + y.freq) x y])

/-- create_tree of encode.rs. -/
def createTree (l : List HTree) : Option HTree :=
  createTreeGo l.length l

/-- The BitQueue of the table walk: length and value of a left/right
path, both held in u32 fields, so both are taken modulo 2 ^ 32 exactly
as pushing a bit into the u32 queue does. -/
def pathCode (p : List Bool) : Nat × Nat :=
  (p.length % 2 ^ 32, p.foldl (fun v b => (2 * v + cond b 1 0) % 2 ^ 32) 0)

/-- The walk closure of create_table in encode.rs, with the path
accumulated so far: a leaf records (letter, (path length, path value));
a joint walks left with a 0 appended, then right with a 1 appended.
The HashMap is modelled as the association list of inserts in walk
order; leaf letters of trees built from a frequency table are distinct,
so the order is immaterial to lookups. -/
def tableWalk : HTree → List Bool → List (Nat × Nat × Nat)
  | .leaf _ c, p => [(c, pathCode p)]
  | .joint _ l r, p => tableWalk l (p ++ [false]) ++ tableWalk r (p ++ [true])

/-- create_table of encode.rs. -/
def createTable (t : HTree) : List (Nat × Nat × Nat) :=
  tableWalk t []

/-- First-match association-list lookup, the model of HashMap lookup. -/
def lookupTab (k : Nat) : List (Nat × Nat × Nat) → Option (Nat × Nat)
  | [] => none
  | (k2, v) :: rest => if k2 = k then some v else lookupTab k rest

/-- write_header of encode.rs: a leaf writes flag bit 0 then the letter
in letter_size bits; a joint writes flag bit 1 then both subtrees. -/
def writeHeaderT (ls : Nat) : HTree → Except Err (List Bool)
  | .leaf _ c =>
    match writeVal ls c 32 with
    | .error e => .error e
    | .ok w => .ok (false :: w)
  | .joint _ l r =>
    match writeHeaderT ls l with
    | .error e => .error e
    | .ok wl =>
      match writeHeaderT ls r with
      | .error e => .error e
      | .ok wr => .ok (true :: (wl ++ wr))

/-- The sequence of letter_size-bit groups read from a stream until the
source is exhausted mid-group, as both count_frequency and the encode
loop of compress read it.  Fuel-based; fuel equal to the stream length
always suffices since each group consumes at least one bit. -/
def letterSeqGo : Nat → List Bool → Nat → List Nat
  | 0, _, _ => []
  | fuel + 1, bits, ls =>
    if ls ≠ 0 ∧ ls ≤ bits.length then
      bitsToNat (bits.take ls) :: letterSeqGo fuel (bits.drop ls) ls
    else []

/-- All complete letters of a stream. -/
def letterSeq (bits : List Bool) (ls : Nat) : List Nat :=
  letterSeqGo bits.length bits ls

/-- One step of the frequency HashMap of count_frequency: bump the
count of a letter, or append it with count one. -/
def addLetter : List (Nat × Nat) → Nat → List (Nat × Nat)
  | [], c => [(c, 1)]
  | (k, f) :: rest, c =>
    if k = c then (k, f + 1) :: rest else (k, f) :: addLetter rest c

/-- The (letter, count) entries of the frequency pass, in first
occurrence order.  The real HashMap yields these entries in an order
that depends on its randomized hash seed; theorems quantify over
permutations of this canonical list where the order matters. -/
def countFreqEntries (bits : List Bool) (ls : Nat) : List (Nat × Nat) :=
  (letterSeq bits ls).foldl addLetter []

/-- The node list count_frequency hands to compress, in canonical
first-occurrence order. -/
def canonNodes (bits : List Bool) (ls : Nat) : List HTree :=
  (countFreqEntries bits ls).map fun e => HTree.leaf e.2 e.1

/-- nodes is a possible result of count_frequency on this input: some
permutation of the canonical entry list, which is exactly the guarantee
HashMap into_values gives. -/
def IsFreqPerm (bits : List Bool) (ls : Nat) (nodes : List HTree) : Prop :=
  List.Perm nodes (canonNodes bits ls)

/-- The encode loop of compress: look each letter up in the table
(indexing a HashMap, which panics when the key is missing) and write
its (length, value) field. -/
def encodeBody (table : List (Nat × Nat × Nat)) : List Nat → Except Err (List Bool)
  | [] => .ok []
  | c :: rest =>
    match lookupTab c table with
    | none => .error .panicMissingKey
    | some lv =>
      match writeVal lv.1 lv.2 32 with
      | .error e => .error e
      | .ok w =>
        match encodeBody table rest with
        | .error e => .error e
        | .ok ws => .ok (w ++ ws)

/-- byte_align of the BitWriter: pad with zero bits to the next byte
boundary. -/
def byteAlign (l : List Bool) : List Bool :=
  l ++ List.replicate ((8 - l.length % 8) % 8) false

/-- compress of encode.rs.  input is the full bit stream of the input
file, nodes the list count_frequency produced, fileSize the byte count
from the file metadata.  Mirrors the source order: the letter-size
guard, the 8-bit and 64-bit header fields, the early Ok return when
there is no tree, the serialized tree, the encoded body, the verbatim
tail of fileSize * 8 - written bits fetched by seeking back from the
stream end, and the final byte alignment.  The seek-back is modelled on
the stream list; a seek before the stream start is the io error case. -/
def compress (input : List Bool) (nodes : List HTree) (fileSize ls : Nat) :
    Except Err (List Bool) :=
  if ¬(2 ≤ ls ∧ ls ≤ 16) then .error .invalidInput
  else
    match writeVal 8 ls 8 with
    | .error e => .error e
    | .ok h8 =>
      match writeVal 64 fileSize 64 with
      | .error e => .error e
      | .ok h64 =>
        match createTree nodes with
        | none => .ok (h8 ++ h64)
        | some tree =>
          match writeHeaderT ls tree with
          | .error e => .error e
          | .ok th =>
            match encodeBody (createTable tree) (letterSeq input ls) with
            | .error e => .error e
            | .ok body =>
              let written := ls * (letterSeq input ls).length
              let remaining := fileSize * 8 - written
              if remaining = 0 then .ok (byteAlign (h8 ++ h64 ++ th ++ body))
              else if input.length < remaining then .error .invalidInput
              else
                match readBitsE remaining (input.drop (input.length - remaining)) 32 with
                | .error e => .error e
                | .ok vs =>
                  match writeVal remaining vs.1 32 with
                  | .error e => .error e
                  | .ok tw => .ok (byteAlign (h8 ++ h64 ++ th ++ body ++ tw))

/-- The whole compression pipeline of compress_file on a byte list,
with the canonical count_frequency order. -/
def compressBytes (bytes : List Nat) (ls : Nat) : Except Err (List Bool) :=
  compress (bytesToBits bytes) (canonNodes (bytesToBits bytes) ls) bytes.length ls

/-- The decoder Node type of decode.rs: Leaf(code) or Joint(left, right),
with no frequency field. -/
inductive DTree where
  | leaf (code : Nat)
  | joint (left : DTree) (right : DTree)
deriving DecidableEq, Repr

/-- read_header of decode.rs: read one flag bit; 0 reads a letter value
and yields a Leaf, 1 reads two subtrees and yields a Joint.  Fuel-based
recursion; every call consumes at least one bit, so fuel equal to the
stream length always suffices and the zero-fuel branch is unreachable
when called that way. -/
def readHeaderGo : Nat → Nat → List Bool → Except Err (DTree × List Bool)
  | 0, _, _ => .error .eof
  | _ + 1, _, [] => .error .eof
  | _ + 1, ls, false :: s =>
    match readBitsE ls s 32 with
    | .error e => .error e
    | .ok cs => .ok (.leaf cs.1, cs.2)
  | fuel + 1, ls, true :: s =>
    match readHeaderGo fuel ls s with
    | .error e => .error e
    | .ok ls1 =>
      match readHeaderGo fuel ls ls1.2 with
      | .error e => .error e
      | .ok rs => .ok (.joint ls1.1 rs.1, rs.2)

/-- read_header on a stream, with adequate fuel. -/
def readHeader (ls : Nat) (s : List Bool) : Except Err (DTree × List Bool) :=
  readHeaderGo (s.length + 1) ls s

/-- The walk closure of create_table in decode.rs: a leaf records
((path length, path value), letter), with the same u32 BitQueue as the
encode side. -/
def tableWalkD : DTree → List Bool → List ((Nat × Nat) × Nat)
  | .leaf c, p => [(pathCode p, c)]
  | .joint l r, p => tableWalkD l (p ++ [false]) ++ tableWalkD r (p ++ [true])

/-- create_table of decode.rs. -/
def createTableD (t : DTree) : List ((Nat × Nat) × Nat) :=
  tableWalkD t []

/-- First-match lookup in the decode table, keyed by (length, value). -/
def lookupTabD (k : Nat × Nat) : List ((Nat × Nat) × Nat) → Option Nat
  | [] => none
  | (k2, v) :: rest => if k2 = k then some v else lookupTabD k rest

/-- The bit-matching loop of decompress: while written < target, read a
bit into the u32 buffer (shifted modulo 2 ^ 32), bump the u32 iteration
counter, and on a table hit write the letter and reset both.  Recursion
is structural on the stream; running out of bits mid-loop is the io
UnexpectedEof error, which decompress propagates. -/
def decodeLoop (table : List ((Nat × Nat) × Nat)) (ls target : Nat) :
    List Bool → Nat → Nat → Nat → List Bool → Except Err (List Bool × List Bool)
  | s, written, buffer, iteration, out =>
    if target ≤ written then .ok (out, s)
    else
      match s with
      | [] => .error .eof
      | b :: s2 =>
        let buffer2 := (2 * buffer + cond b 1 0) % 2 ^ 32
        let iteration2 := (iteration + 1) % 2 ^ 32
        match lookupTabD (iteration2, buffer2) table with
        | some v =>
          match writeVal ls v 32 with
          | .error e => .error e
          | .ok w => decodeLoop table ls target s2 (written + ls) 0 0 (out ++ w)
        | none => decodeLoop table ls target s2 written buffer2 iteration2 out

/-- decompress of decode.rs.  Mirrors the source order: read the 8-bit
letter size and the 64-bit byte count, multiply the byte count by 8,
compute target and remaining sizes (the division by letter_size is the
Rust panic site when the header carries a zero), read the tree while
treating an UnexpectedEof anywhere inside read_header as success with
the output written so far (nothing at that point), run the bit-matching
loop, then copy the remaining bits verbatim. -/
def decompress (input : List Bool) : Except Err (List Bool) :=
  match readBitsE 8 input 8 with
  | .error e => .error e
  | .ok lss =>
    match readBitsE 64 lss.2 64 with
    | .error e => .error e
    | .ok fss =>
      let ls := lss.1
      let fileBits := fss.1 * 8
      if ls = 0 then .error .panicDivZero
      else
        let target := ls * (fileBits / ls)
        let remaining := fileBits - target
        match readHeader ls fss.2 with
        | .error .eof => .ok []
        | .error e => .error e
        | .ok ts =>
          match decodeLoop (createTableD ts.1) ls target ts.2 0 0 0 [] with
          | .error e => .error e
          | .ok outs =>
            if remaining = 0 then .ok outs.1
            else
              match readBitsE remaining outs.2 32 with
              | .error e => .error e
              | .ok vs =>
                match writeVal remaining vs.1 32 with
                | .error e => .error e
                | .ok w => .ok (outs.1 ++ w)

/-- The decompression pipeline on a byte list. -/
def decompressBytes (bytes : List Nat) : Except Err (List Bool) :=
  decompress (bytesToBits bytes)

/-- Compress then decompress, the round-trip of the two pipelines. -/
def roundTrip (bytes : List Nat) (ls : Nat) : Except Err (List Bool) :=
  match compressBytes bytes ls with
  | .error e => .error e
  | .ok c => decompress c

/-- File-system actions the two file wrappers perform, in order. -/
inductive FsEvent where
  | openInput
  | createOutput
  | readMeta
  | removeOutput
deriving DecidableEq, Repr

/-- compress_file of encode.rs as an ordered file-system trace plus a
result.  The source opens the input file, creates the output file, runs
count_frequency (which opens the input again and reads it in full),
reads the input metadata, and only then calls compress, which performs
the letter-size check.  count_frequency itself fails when letter_size
exceeds 32 bits (the u32 read width), and loops forever reading empty
groups when letter_size is zero. -/
def compressFileM (bytes : List Nat) (ls : Nat) : List FsEvent × Except Err (List Bool) :=
  let evs := [FsEvent.openInput, FsEvent.createOutput, FsEvent.openInput]
  if ls = 0 then (evs, .error .nonTermination)
  else if 32 < ls then (evs, .error .excessiveBits)
  else
    (evs ++ [FsEvent.readMeta],
      compress (bytesToBits bytes) (canonNodes (bytesToBits bytes) ls) bytes.length ls)

/-- decompress_file of decode.rs as an ordered file-system trace plus a
result: it opens the input, creates the output, and runs decompress;
the source never removes the output file, on any path. -/
def decompressFileM (bytes : List Nat) : List FsEvent × Except Err (List Bool) :=
  ([FsEvent.openInput, FsEvent.createOutput], decompress (bytesToBits bytes))

/-- Depth of the deepest leaf of an encoder tree. -/
def HTree.depth : HTree → Nat
  | .leaf _ _ => 0
  | .joint _ l r => max l.depth r.depth + 1

/-- Depth of the deepest leaf of a decoder tree. -/
def DTree.depth : DTree → Nat
  | .leaf _ => 0
  | .joint l r => max l.depth r.depth + 1

/-- Modelled from the spec: the (bit-length, bit-value) pair of a
root-to-leaf path with unbounded integers, the faithful mathematical
reading of a code, for comparison with the u32 pathCode of the code. -/
def pathCodeExact (p : List Bool) : Nat × Nat :=
  (p.length, p.foldl (fun v b => 2 * v + cond b 1 0) 0)

/-- The encode-table walk with exact path codes. -/
def tableWalkExact : HTree → List Bool → List (Nat × Nat × Nat)
  | .leaf _ c, p => [(c, pathCodeExact p)]
  | .joint _ l r, p => tableWalkExact l (p ++ [false]) ++ tableWalkExact r (p ++ [true])

/-- The encode table with exact path codes. -/
def createTableExact (t : HTree) : List (Nat × Nat × Nat) :=
  tableWalkExact t []

/-- The decode-table walk with exact path codes. -/
def tableWalkDExact : DTree → List Bool → List ((Nat × Nat) × Nat)
  | .leaf c, p => [(pathCodeExact p, c)]
  | .joint l r, p => tableWalkDExact l (p ++ [false]) ++ tableWalkDExact r (p ++ [true])

/-- The decode table with exact path codes. -/
def createTableDExact (t : DTree) : List ((Nat × Nat) × Nat) :=
  tableWalkDExact t []

/-- Modelled from the spec, section 4.4: serialize the tree recursively,
one flag bit 0 then the letter in letter_size bits for a Leaf, flag bit
1 then the serialized left subtree then the serialized right subtree
for a Joint. -/
def serializeTreeSpec (ls : Nat) : HTree → List Bool
  | .leaf _ c => false :: natToBits ls c
  | .joint _ l r => true :: (serializeTreeSpec ls l ++ serializeTreeSpec ls r)

end Huffman

deriving instance DecidableEq for Except

namespace Huffman

/-- popMin of a nonempty list always yields a node. -/
theorem popMin_ne_none (t : HTree) (rest : List HTree) : popMin (t :: rest) ≠ none := by
  rw [popMin]
  cases popMin rest with
  | none => simp
  | some mr => obtain ⟨m, r2⟩ := mr; dsimp only; split <;> simp

/-- Unfolding of the merge loop on a list of at least two nodes. -/
theorem createTreeGo_succ (n : Nat) (a b : HTree) (r2 : List HTree) :
    createTreeGo (n + 1) (a :: b :: r2) =
      match popMin (a :: b :: r2) with
      | none => none
      | some (x, l1) =>
        match popMin l1 with
        | none => none
        | some (y, l2) => createTreeGo n (l2 ++ [HTree.joint (x.freq + y.freq) x y]) := rfl

/-- Popping the least node is a permutation: the heap loses exactly
that node. -/
theorem popMin_perm : ∀ {l : List HTree} {x : HTree} {l1 : List HTree},
    popMin l = some (x, l1) → List.Perm l (x :: l1) := by
  intro l
  induction l with
  | nil => intro x l1 h; simp [popMin] at h
  | cons t rest ih =>
    intro x l1 h
    rw [popMin] at h
    cases hrest : popMin rest with
    | none =>
      have hrest0 : rest = [] := by
        cases rest with
        | nil => rfl
        | cons b r2 => exact absurd hrest (popMin_ne_none b r2)
      subst hrest0
      simp only [hrest] at h
      simp only [Option.some.injEq, Prod.mk.injEq] at h
      obtain ⟨rfl, rfl⟩ := h
      exact List.Perm.refl _
    | some mr =>
      obtain ⟨m, rest2⟩ := mr
      rw [hrest] at h
      simp only [] at h
      split at h
      · simp only [Option.some.injEq, Prod.mk.injEq] at h
        obtain ⟨rfl, rfl⟩ := h
        exact List.Perm.refl _
      · simp only [Option.some.injEq, Prod.mk.injEq] at h
        obtain ⟨rfl, rfl⟩ := h
        exact List.Perm.trans (List.Perm.cons t (ih hrest)) (List.Perm.swap _ _ _)

/-- Permuting a forest does not change which letters its leaves hold. -/
theorem mem_listLeafLetters_of_perm {l l2 : List HTree} (h : List.Perm l l2) {c : Nat} :
    c ∈ listLeafLetters l ↔ c ∈ listLeafLetters l2 := by
  unfold listLeafLetters
  simp only [List.mem_flatMap]
  constructor
  · rintro ⟨a, ha, hc⟩; exact ⟨a, h.mem_iff.mp ha, hc⟩
  · rintro ⟨a, ha, hc⟩; exact ⟨a, h.mem_iff.mpr ha, hc⟩

/-- The merge loop never drops a letter: every leaf letter of the input
forest is a leaf letter of the resulting tree. -/
theorem createTreeGo_mem : ∀ (fuel : Nat) (l : List HTree) (t : HTree),
    createTreeGo fuel l = some t → ∀ c, c ∈ listLeafLetters l → c ∈ leafLetters t := by
  intro fuel
  induction fuel with
  | zero =>
    intro l t h c hc
    cases l with
    | nil => simp [createTreeGo] at h
    | cons a rest =>
      cases rest with
      | nil =>
        simp [createTreeGo] at h
        subst h
        simpa [listLeafLetters] using hc
      | cons b r2 => simp [createTreeGo] at h
  | succ n ih =>
    intro l t h c hc
    cases l with
    | nil => simp [createTreeGo] at h
    | cons a rest =>
      cases rest with
      | nil =>
        simp [createTreeGo] at h
        subst h
        simpa [listLeafLetters] using hc
      | cons b r2 =>
        rw [createTreeGo_succ] at h
        cases h1 : popMin (a :: b :: r2) with
        | none => exact absurd h1 (popMin_ne_none _ _)
        | some xl =>
          obtain ⟨x, l1⟩ := xl
          simp only [h1] at h
          cases h2 : popMin l1 with
          | none => simp [h2] at h
          | some yl =>
            obtain ⟨y, l2⟩ := yl
            simp only [h2] at h
            apply ih _ _ h
            have p1 := popMin_perm h1
            have p2 := popMin_perm h2
            have hc1 : c ∈ listLeafLetters (x :: l1) := (mem_listLeafLetters_of_perm p1).mp hc
            simp only [listLeafLetters, List.flatMap_cons, List.mem_append] at hc1
            have hc2 : c ∈ leafLetters x ∨ c ∈ leafLetters y ∨ c ∈ List.flatMap l2 leafLetters := by
              rcases hc1 with h3 | h3
              · tauto
              · have h5 := (mem_listLeafLetters_of_perm p2).mp h3
                simp only [listLeafLetters, List.flatMap_cons, List.mem_append] at h5
                tauto
            simp only [listLeafLetters, List.flatMap_append, List.flatMap_cons,
              List.flatMap_nil, List.mem_append, List.append_nil, leafLetters]
            tauto

/-- The letter just added is among the keys of the frequency map. -/
theorem mem_addLetter_self : ∀ (acc : List (Nat × Nat)) (c : Nat),
    ∃ f, (c, f) ∈ addLetter acc c := by
  intro acc c
  induction acc with
  | nil => exact ⟨1, by simp [addLetter]⟩
  | cons e rest ih =>
    obtain ⟨k, f⟩ := e
    by_cases hk : k = c
    · subst hk
      exact ⟨f + 1, by simp [addLetter]⟩
    · obtain ⟨f2, hf2⟩ := ih
      exact ⟨f2, by simp [addLetter, hk, hf2]⟩

/-- Adding a letter keeps every existing key of the frequency map. -/
theorem mem_addLetter_mono : ∀ (acc : List (Nat × Nat)) (c2 c f : Nat),
    (c, f) ∈ acc → ∃ f2, (c, f2) ∈ addLetter acc c2 := by
  intro acc c2
  induction acc with
  | nil => intro c f h; simp at h
  | cons e rest ih =>
    obtain ⟨k, g⟩ := e
    intro c f h
    by_cases hk : k = c2
    · subst hk
      rcases List.mem_cons.mp h with h1 | h1
      · obtain ⟨h2, h3⟩ := Prod.mk.injEq .. ▸ h1
        exact ⟨g + 1, by simp [addLetter, ← h2]⟩
      · exact ⟨f, by simp [addLetter, h1]⟩
    · rcases List.mem_cons.mp h with h1 | h1
      · exact ⟨f, by simp [addLetter, hk, h1]⟩
      · obtain ⟨f2, hf2⟩ := ih c f h1
        exact ⟨f2, by simp [addLetter, hk, hf2]⟩

/-- Every letter of the sequence ends up as a key of the folded
frequency map. -/
theorem mem_foldl_addLetter : ∀ (seq : List Nat) (acc : List (Nat × Nat)) (c : Nat),
    (∃ f, (c, f) ∈ acc) ∨ c ∈ seq → ∃ f, (c, f) ∈ seq.foldl addLetter acc := by
  intro seq
  induction seq with
  | nil =>
    intro acc c h
    rcases h with h | h
    · exact h
    · simp at h
  | cons d rest ih =>
    intro acc c h
    simp only [List.foldl_cons]
    rcases h with ⟨f, hf⟩ | h
    · exact ih _ c (Or.inl (mem_addLetter_mono acc d c f hf))
    · rcases List.mem_cons.mp h with h1 | h1
      · subst h1
        exact ih _ c (Or.inl (mem_addLetter_self acc c))
      · exact ih _ c (Or.inr h1)

/-- Every letter of the input stream is a leaf letter of the canonical
frequency node list. -/
theorem mem_canonNodes (bits : List Bool) (ls c : Nat) (h : c ∈ letterSeq bits ls) :
    c ∈ listLeafLetters (canonNodes bits ls) := by
  obtain ⟨f, hf⟩ := mem_foldl_addLetter (letterSeq bits ls) [] c (Or.inr h)
  unfold listLeafLetters canonNodes
  simp only [List.mem_flatMap, List.mem_map]
  exact ⟨HTree.leaf f c, ⟨(c, f), hf, rfl⟩, by simp [leafLetters]⟩

/-- A key found in either half of a concatenated table is found in the
concatenation. -/
theorem lookupTab_isSome_append (c : Nat) (l1 l2 : List (Nat × Nat × Nat))
    (h : (lookupTab c l1).isSome ∨ (lookupTab c l2).isSome) :
    (lookupTab c (l1 ++ l2)).isSome := by
  induction l1 with
  | nil => simpa [lookupTab] using h
  | cons e rest ih =>
    obtain ⟨k, v⟩ := e
    by_cases hk : k = c
    · simp [lookupTab, hk]
    · simp only [lookupTab, hk, if_false, List.cons_append] at h ⊢
      exact ih h

/-- The encode table built by the walk covers every leaf letter of the
tree. -/
theorem lookupTab_tableWalk (t : HTree) : ∀ (p : List Bool) (c : Nat),
    c ∈ leafLetters t → (lookupTab c (tableWalk t p)).isSome := by
  induction t with
  | leaf f c2 =>
    intro p c hc
    simp only [leafLetters, List.mem_singleton] at hc
    subst hc
    simp [tableWalk, lookupTab]
  | joint f l r ihl ihr =>
    intro p c hc
    simp only [leafLetters, List.mem_append] at hc
    rw [tableWalk]
    rcases hc with hc | hc
    · exact lookupTab_isSome_append c _ _ (Or.inl (ihl _ c hc))
    · exact lookupTab_isSome_append c _ _ (Or.inr (ihr _ c hc))

/-- A failed write is an excessive-bits or excessive-value error, never
a panic. -/
theorem writeVal_error_shape {b v m : Nat} {e : Err} (h : writeVal b v m = .error e) :
    e = .excessiveBits ∨ e = .excessiveValue := by
  unfold writeVal at h
  split at h
  · injection h with h2; exact Or.inl h2.symm
  · split at h
    · injection h with h2; exact Or.inr h2.symm
    · injection h

/-- A failed read is an end-of-input or excessive-bits error, never a
panic. -/
theorem readBitsE_error_shape {n m : Nat} {s : List Bool} {e : Err}
    (h : readBitsE n s m = .error e) : e = .eof ∨ e = .excessiveBits := by
  unfold readBitsE at h
  split at h
  · injection h with h2; exact Or.inr h2.symm
  · split at h
    · injection h
    · injection h with h2; exact Or.inl h2.symm

/-- A failed tree serialization only propagates write errors. -/
theorem writeHeaderT_error_shape (ls : Nat) : ∀ (t : HTree) {e : Err},
    writeHeaderT ls t = .error e → e = .excessiveBits ∨ e = .excessiveValue := by
  intro t
  induction t with
  | leaf f c =>
    intro e h
    rw [writeHeaderT] at h
    cases hw : writeVal ls c 32 with
    | error e2 =>
      rw [hw] at h
      injection h with h2
      exact h2 ▸ writeVal_error_shape hw
    | ok w => rw [hw] at h; injection h
  | joint f l r ihl ihr =>
    intro e h
    rw [writeHeaderT] at h
    cases hl : writeHeaderT ls l with
    | error e2 =>
      rw [hl] at h
      injection h with h2
      exact h2 ▸ ihl hl
    | ok wl =>
      rw [hl] at h
      cases hr : writeHeaderT ls r with
      | error e2 =>
        rw [hr] at h
        injection h with h2
        exact h2 ▸ ihr hr
      | ok wr => rw [hr] at h; injection h

/-- When the table covers every letter of the stream, the encode loop
never reaches the missing-key panic. -/
theorem encodeBody_no_panic (table : List (Nat × Nat × Nat)) : ∀ (letters : List Nat),
    (∀ c ∈ letters, (lookupTab c table).isSome) →
    encodeBody table letters ≠ .error .panicMissingKey := by
  intro letters
  induction letters with
  | nil => intro _ h; simp [encodeBody] at h
  | cons c rest ih =>
    intro hall h
    rw [encodeBody] at h
    have hc : (lookupTab c table).isSome := hall c (by simp)
    cases hl : lookupTab c table with
    | none => rw [hl] at hc; simp at hc
    | some lv =>
      simp only [hl] at h
      cases hw : writeVal lv.1 lv.2 32 with
      | error e2 =>
        rw [hw] at h
        injection h with h2
        rcases writeVal_error_shape hw with h3 | h3 <;> rw [h3] at h2 <;> exact Err.noConfusion h2
      | ok w =>
        rw [hw] at h
        cases hb : encodeBody table rest with
        | error e2 =>
          rw [hb] at h
          injection h with h2
          exact ih (fun d hd => hall d (by simp [hd])) (h2 ▸ hb)
        | ok ws => rw [hb] at h; injection h

/-- A write whose width fits the type and whose value fits the width
succeeds with the big-endian bits of the value. -/
theorem writeVal_ok_of_lt {b v m : Nat} (hb : b ≤ m) (hv : v < 2 ^ b) :
    writeVal b v m = .ok (natToBits b v) := by
  unfold writeVal
  rw [if_neg (by omega), if_neg (by omega)]

/-- A successful write_header emits exactly the serialization the spec
describes: flag 0 plus the letter bits for a leaf, flag 1 plus both
subtrees for a joint. -/
theorem writeHeaderT_ok_spec (ls : Nat) : ∀ (t : HTree) (bs : List Bool),
    writeHeaderT ls t = .ok bs → bs = serializeTreeSpec ls t := by
  intro t
  induction t with
  | leaf f c =>
    intro bs h
    rw [writeHeaderT] at h
    cases hw : writeVal ls c 32 with
    | error e => rw [hw] at h; injection h
    | ok w =>
      rw [hw] at h
      injection h with h2
      unfold writeVal at hw
      split at hw
      · injection hw
      · split at hw
        · injection hw
        · injection hw with h3
          rw [← h2, serializeTreeSpec, ← h3]
  | joint f l r ihl ihr =>
    intro bs h
    rw [writeHeaderT] at h
    cases hl : writeHeaderT ls l with
    | error e => rw [hl] at h; injection h
    | ok wl =>
      simp only [hl] at h
      cases hr : writeHeaderT ls r with
      | error e => rw [hr] at h; injection h
      | ok wr =>
        simp only [hr] at h
        injection h with h2
        rw [← h2, serializeTreeSpec, ihl wl hl, ihr wr hr]

/-- C7: the compressed output of a valid run begins with the 8-bit
letter size and the 64-bit byte count; when a tree exists it is then
followed by the pre-order flag/leaf serialization of the tree exactly
as the spec words it, and when the input is empty only the two fixed
fields are written. -/
theorem c7_header_layout (input : List Bool) (nodes : List HTree) (fileSize ls : Nat)
    (h2 : 2 ≤ ls) (h16 : ls ≤ 16) (hfs : fileSize < 2 ^ 64) (hp : IsFreqPerm input ls nodes) :
    (input = [] → compress input nodes fileSize ls =
        .ok (natToBits 8 ls ++ natToBits 64 fileSize)) ∧
      (∀ out tree, compress input nodes fileSize ls = .ok out → createTree nodes = some tree →
        ∃ rest, out = natToBits 8 ls ++ natToBits 64 fileSize ++
          serializeTreeSpec ls tree ++ rest) := by
  have hls8 : ls < 2 ^ 8 := by calc ls ≤ 16 := h16
                                  _ < 2 ^ 8 := by norm_num
  constructor
  · intro hin
    subst hin
    have hn : nodes = [] := List.Perm.eq_nil (by simpa [IsFreqPerm, canonNodes,
      countFreqEntries, letterSeq, letterSeqGo] using hp)
    subst hn
    rw [compress, if_neg (not_not_intro ⟨h2, h16⟩),
      writeVal_ok_of_lt (le_refl 8) hls8, writeVal_ok_of_lt (le_refl 64) hfs]
    rfl
  · intro out tree hc hct
    rw [compress, if_neg (not_not_intro ⟨h2, h16⟩),
      writeVal_ok_of_lt (le_refl 8) hls8, writeVal_ok_of_lt (le_refl 64) hfs] at hc
    simp only [hct] at hc
    cases hwh : writeHeaderT ls tree with
    | error e => rw [hwh] at hc; exact Except.noConfusion hc
    | ok th =>
      simp only [hwh] at hc
      cases hb : encodeBody (createTable tree) (letterSeq input ls) with
      | error e => rw [hb] at hc; exact Except.noConfusion hc
      | ok body =>
        simp only [hb] at hc
        rw [writeHeaderT_ok_spec ls tree th hwh] at hc
        split at hc
        · injection hc with h3
          exact ⟨body ++ List.replicate ((8 - (natToBits 8 ls ++ natToBits 64 fileSize ++
            serializeTreeSpec ls tree ++ body).length % 8) % 8) false,
            by rw [← h3, byteAlign]; simp [List.append_assoc]⟩
        · split at hc
          · exact Except.noConfusion hc
          · cases hr : readBitsE (fileSize * 8 - ls * (letterSeq input ls).length)
                (input.drop (input.length - (fileSize * 8 - ls * (letterSeq input ls).length)))
                32 with
            | error e => rw [hr] at hc; exact Except.noConfusion hc
            | ok vs =>
              simp only [hr] at hc
              cases hwt : writeVal (fileSize * 8 - ls * (letterSeq input ls).length) vs.1 32 with
              | error e => rw [hwt] at hc; exact Except.noConfusion hc
              | ok tw =>
                simp only [hwt] at hc
                injection hc with h3
                exact ⟨body ++ tw ++ List.replicate ((8 - (natToBits 8 ls ++
                  natToBits 64 fileSize ++ serializeTreeSpec ls tree ++ body ++ tw).length
                  % 8) % 8) false,
                  by rw [← h3, byteAlign]; simp [List.append_assoc]⟩

/-- Witness for C7: the empty input with letter size 8 compresses to
exactly the two fixed header fields. -/
theorem c7_header_layout_witness :
    compress [] [] 0 8 = .ok (natToBits 8 8 ++ natToBits 64 0) :=
  (c7_header_layout [] [] 0 8 (by norm_num) (by norm_num) (by norm_num) (List.Perm.refl _)).1 rfl

/-- C8: on any run whose node list is a frequency pass over the same
input, the encode table covers every letter the encoding pass reads, so
the lookup panic on a missing key is unreachable: compress can fail for
other reasons, but never with the missing-key panic. -/
theorem c8_encode_table_total (input : List Bool) (ls : Nat) (nodes : List HTree)
    (fileSize : Nat) (h2 : 2 ≤ ls) (h16 : ls ≤ 16) (hp : IsFreqPerm input ls nodes) :
    (∀ tree, createTree nodes = some tree →
        ∀ c ∈ letterSeq input ls, (lookupTab c (createTable tree)).isSome) ∧
      compress input nodes fileSize ls ≠ .error .panicMissingKey := by
  have hcov : ∀ tree, createTree nodes = some tree →
      ∀ c ∈ letterSeq input ls, (lookupTab c (createTable tree)).isSome := by
    intro tree hct c hc
    have h3 : c ∈ listLeafLetters (canonNodes input ls) := mem_canonNodes input ls c hc
    have h4 : c ∈ listLeafLetters nodes := (mem_listLeafLetters_of_perm hp).mpr h3
    unfold createTree at hct
    have h5 : c ∈ leafLetters tree := createTreeGo_mem _ _ _ hct c h4
    exact lookupTab_tableWalk tree [] c h5
  refine ⟨hcov, ?_⟩
  intro hcon
  rw [compress] at hcon
  rw [if_neg (not_not_intro ⟨h2, h16⟩)] at hcon
  cases hw8 : writeVal 8 ls 8 with
  | error e =>
    simp only [hw8] at hcon
    injection hcon with h3
    rcases writeVal_error_shape hw8 with h4 | h4 <;> rw [h3] at h4 <;> exact Err.noConfusion h4
  | ok h8 =>
    simp only [hw8] at hcon
    cases hw64 : writeVal 64 fileSize 64 with
    | error e =>
      simp only [hw64] at hcon
      injection hcon with h3
      rcases writeVal_error_shape hw64 with h4 | h4 <;> rw [h3] at h4 <;> exact Err.noConfusion h4
    | ok h64 =>
      simp only [hw64] at hcon
      cases hct : createTree nodes with
      | none =>
        simp only [hct] at hcon
        exact Except.noConfusion hcon
      | some tree =>
        simp only [hct] at hcon
        cases hwh : writeHeaderT ls tree with
        | error e =>
          simp only [hwh] at hcon
          injection hcon with h3
          rcases writeHeaderT_error_shape ls tree hwh with h4 | h4 <;> rw [h3] at h4 <;>
            exact Err.noConfusion h4
        | ok th =>
          simp only [hwh] at hcon
          cases hb : encodeBody (createTable tree) (letterSeq input ls) with
          | error e =>
            simp only [hb] at hcon
            injection hcon with h3
            exact encodeBody_no_panic (createTable tree) (letterSeq input ls)
              (hcov tree hct) (h3 ▸ hb)
          | ok body =>
            simp only [hb] at hcon
            split at hcon
            · injection hcon
            · split at hcon
              · injection hcon with h3; exact Err.noConfusion h3
              · cases hr : readBitsE (fileSize * 8 - ls * (letterSeq input ls).length)
                    (input.drop (input.length - (fileSize * 8 -
                      ls * (letterSeq input ls).length))) 32 with
                | error e =>
                  simp only [hr] at hcon
                  injection hcon with h3
                  rcases readBitsE_error_shape hr with h4 | h4 <;> rw [h3] at h4 <;>
                    exact Err.noConfusion h4
                | ok vs =>
                  simp only [hr] at hcon
                  cases hwt : writeVal (fileSize * 8 - ls * (letterSeq input ls).length)
                      vs.1 32 with
                  | error e =>
                    simp only [hwt] at hcon
                    injection hcon with h3
                    rcases writeVal_error_shape hwt with h4 | h4 <;> rw [h3] at h4 <;>
                      exact Err.noConfusion h4
                  | ok tw =>
                    simp only [hwt] at hcon
                    exact Except.noConfusion hcon

/-- Witness for C8: a concrete valid run on the two-byte input 0x41
0x42 never hits the missing-key panic. -/
theorem c8_encode_table_total_witness :
    compress (bytesToBits [65, 66]) (canonNodes (bytesToBits [65, 66]) 8) 2 8 ≠
      .error .panicMissingKey :=
  (c8_encode_table_total (bytesToBits [65, 66]) 8 (canonNodes (bytesToBits [65, 66]) 8) 2
    (by norm_num) (by norm_num) (List.Perm.refl _)).2

set_option maxRecDepth 400000 in
/-- C1: the round-trip claim fails on the code: for the one-byte input
0x41 with letter_size 8 the compressor assigns the single distinct
letter a zero-length code, writes an empty body, and the decoder then
exhausts the stream without ever matching a code, so decompressing the
compressed artifact returns an UnexpectedEof error instead of
reproducing the input byte-for-byte. -/
theorem c1_single_letter_round_trip_error :
    roundTrip [65] 8 = .error .eof ∧ roundTrip [65] 8 ≠ .ok (bytesToBits [65]) := by
  constructor
  · decide
  · decide

set_option maxRecDepth 400000 in
/-- C2: an input of repetitions of one letter value does produce a
degenerate single-leaf tree, but the round trip does not reproduce the
byte sequence: the zero-length code is never matched by the decoder,
whose loop only consults the table after consuming at least one bit,
so it reads to the end of the stream and fails with UnexpectedEof. -/
theorem c2_single_leaf_tree_round_trip_error :
    createTree (canonNodes (bytesToBits [66, 66]) 8) = some (HTree.leaf 2 66) ∧
      roundTrip [66, 66] 8 = .error .eof := by
  constructor
  · decide
  · decide

set_option maxRecDepth 400000 in
/-- C3: rejecting letter_size 1 and 17 does not happen before any file
is touched: compress_file opens the input file, creates the output
file, opens the input again and reads it in full for the frequency
pass, and reads the metadata, before compress raises InvalidArgument. -/
theorem c3_invalid_letter_size_files_touched_first :
    compressFileM [65] 1 =
      ([FsEvent.openInput, FsEvent.createOutput, FsEvent.openInput, FsEvent.readMeta],
        .error .invalidInput) ∧
    compressFileM [65] 17 =
      ([FsEvent.openInput, FsEvent.createOutput, FsEvent.openInput, FsEvent.readMeta],
        .error .invalidInput) := by
  constructor
  · decide
  · decide

set_option maxRecDepth 400000 in
/-- C4: compression is not deterministic on the input alone: for the
two-byte input 0x41 0x42 with letter_size 8 the two equally frequent
letters tie in the heap, and the tie is resolved by the order in which
the frequency HashMap yields its entries, an order that is randomized
per HashMap instance.  Both entry orders below are permutations of the
frequency table of the same input, yet they compress to different
bitstreams, so two runs of compression can produce different output. -/
theorem c4_hashmap_order_changes_output :
    IsFreqPerm (bytesToBits [65, 66]) 8 [HTree.leaf 1 65, HTree.leaf 1 66] ∧
      IsFreqPerm (bytesToBits [65, 66]) 8 [HTree.leaf 1 66, HTree.leaf 1 65] ∧
      compress (bytesToBits [65, 66]) [HTree.leaf 1 65, HTree.leaf 1 66] 2 8 ≠
        compress (bytesToBits [65, 66]) [HTree.leaf 1 66, HTree.leaf 1 65] 2 8 := by
  refine ⟨by unfold IsFreqPerm; decide, by unfold IsFreqPerm; decide, by decide⟩

set_option maxRecDepth 400000 in
/-- C5: an end-of-input in the middle of reading the tree does not
propagate as an error: for a compressed stream whose header declares
one byte of payload and whose tree starts with a Joint flag but is cut
off inside the left leaf, decompress swallows the UnexpectedEof raised
inside read_header and returns success with empty output. -/
theorem c5_mid_tree_eof_swallowed :
    decompress (bytesToBits [8, 0, 0, 0, 0, 0, 0, 0, 1, 128]) = .ok [] := by
  decide

set_option maxRecDepth 400000 in
/-- C6: a decompression that fails after the output file was created
does not delete the partial output: on a stream whose header promises
100 bytes but whose body runs out of bits, decompress_file returns the
UnexpectedEof error with the output file created and never removed. -/
theorem c6_failed_decompress_keeps_output_file :
    (decompressFileM [8, 0, 0, 0, 0, 0, 0, 0, 100, 144, 72, 64]).2 = .error .eof ∧
      FsEvent.createOutput ∈ (decompressFileM [8, 0, 0, 0, 0, 0, 0, 0, 100, 144, 72, 64]).1 ∧
      FsEvent.removeOutput ∉ (decompressFileM [8, 0, 0, 0, 0, 0, 0, 0, 100, 144, 72, 64]).1 := by
  refine ⟨by decide, by decide, by decide⟩

/-- Folding bits into the u32 queue agrees with the exact fold as long
as at most 32 bits in total are pushed: the modulus never truncates. -/
theorem foldStep_mod_eq (p : List Bool) : ∀ v k : Nat, v < 2 ^ k → p.length + k ≤ 32 →
    p.foldl (fun v b => (2 * v + cond b 1 0) % 2 ^ 32) v =
      p.foldl (fun v b => 2 * v + cond b 1 0) v := by
  induction p with
  | nil => intro v k _ _; rfl
  | cons b rest ih =>
    intro v k hv hlen
    have hc : cond b 1 0 ≤ 1 := by cases b <;> simp
    have hpow : 2 ^ (k + 1) = 2 * 2 ^ k := by rw [Nat.pow_succ]; ring
    have h1 : 2 * v + cond b 1 0 < 2 ^ (k + 1) := by omega
    have hlen2 : rest.length + (k + 1) ≤ 32 := by
      simp only [List.length_cons] at hlen; omega
    have hle : 2 ^ (k + 1) ≤ 2 ^ 32 := Nat.pow_le_pow_right (by omega) (by omega)
    have hmod : (2 * v + cond b 1 0) % 2 ^ 32 = 2 * v + cond b 1 0 :=
      Nat.mod_eq_of_lt (lt_of_lt_of_le h1 hle)
    simp only [List.foldl_cons, hmod]
    exact ih _ (k + 1) h1 hlen2

/-- The u32 path code of a path of at most 32 bits is the exact path
code. -/
theorem pathCode_eq_exact (p : List Bool) (h : p.length ≤ 32) :
    pathCode p = pathCodeExact p := by
  unfold pathCode pathCodeExact
  rw [Nat.mod_eq_of_lt (lt_of_le_of_lt h (by norm_num)),
    foldStep_mod_eq p 0 0 (by norm_num) (by omega)]

/-- The encode-side table walk agrees with the exact walk when the
accumulated path plus the remaining depth stays within 32 bits. -/
theorem tableWalk_eq_exact : ∀ (t : HTree) (p : List Bool),
    p.length + HTree.depth t ≤ 32 → tableWalk t p = tableWalkExact t p := by
  intro t
  induction t with
  | leaf f c =>
    intro p h
    simp only [HTree.depth] at h
    simp only [tableWalk, tableWalkExact, pathCode_eq_exact p (by omega)]
  | joint f l r ihl ihr =>
    intro p h
    simp only [HTree.depth] at h
    have hml := Nat.le_max_left (HTree.depth l) (HTree.depth r)
    have hmr := Nat.le_max_right (HTree.depth l) (HTree.depth r)
    simp only [tableWalk, tableWalkExact]
    rw [ihl (p ++ [false]) (by simp; omega), ihr (p ++ [true]) (by simp; omega)]

/-- The decode-side table walk agrees with the exact walk when the
accumulated path plus the remaining depth stays within 32 bits. -/
theorem tableWalkD_eq_exact : ∀ (t : DTree) (p : List Bool),
    p.length + DTree.depth t ≤ 32 → tableWalkD t p = tableWalkDExact t p := by
  intro t
  induction t with
  | leaf c =>
    intro p h
    simp only [DTree.depth] at h
    simp only [tableWalkD, tableWalkDExact, pathCode_eq_exact p (by omega)]
  | joint l r ihl ihr =>
    intro p h
    simp only [DTree.depth] at h
    have hml := Nat.le_max_left (DTree.depth l) (DTree.depth r)
    have hmr := Nat.le_max_right (DTree.depth l) (DTree.depth r)
    simp only [tableWalkD, tableWalkDExact]
    rw [ihl (p ++ [false]) (by simp; omega), ihr (p ++ [true]) (by simp; omega)]

/-- C10: both code tables hold each code as a (length, value) pair of
u32 fields.  For every tree whose leaves all sit at depth at most 32
the tables coincide with the exact mathematical path encoding, so the
pairs represent root-to-leaf paths faithfully; and a code longer than
32 bits cannot be represented, two distinct 33-bit paths already
collapsing to the same u32 pair because the bits pushed beyond 32 are
lost. -/
theorem c10_u32_code_representation :
    (∀ t : HTree, HTree.depth t ≤ 32 → createTable t = createTableExact t) ∧
      (∀ t : DTree, DTree.depth t ≤ 32 → createTableD t = createTableDExact t) ∧
      ∃ p q : List Bool, p ≠ q ∧ pathCode p = pathCode q := by
  refine ⟨fun t h => tableWalk_eq_exact t [] (by simpa using h),
    fun t h => tableWalkD_eq_exact t [] (by simpa using h),
    true :: List.replicate 32 false, false :: List.replicate 32 false, by decide, by decide⟩

/-- Witness for C10 at a concrete two-leaf tree of depth one. -/
theorem c10_u32_code_representation_witness :
    createTable (HTree.joint 2 (HTree.leaf 1 0) (HTree.leaf 1 1)) =
      createTableExact (HTree.joint 2 (HTree.leaf 1 0) (HTree.leaf 1 1)) :=
  c10_u32_code_representation.1 _ (by decide)

set_option maxRecDepth 400000 in
/-- C9: the decoder does not validate the letter_size field of the
header: a header carrying letter_size 17 with byte count 0 is honored
and decompression succeeds with empty output instead of returning a
corruption error, and a header carrying letter_size 0 drives the
decoder into the integer division by zero panic. -/
theorem c9_header_letter_size_not_validated :
    decompress (bytesToBits [17, 0, 0, 0, 0, 0, 0, 0, 0]) = .ok [] ∧
      decompress (bytesToBits [0, 0, 0, 0, 0, 0, 0, 0, 0]) = .error .panicDivZero := by
  constructor
  · decide
  · decide

end Huffman
